import Mathlib

/-!
Verification development for the `ate` terminal pager.

Shallow embedding of the core of the program:
  * `src/doc.rs`    — `Document::new`, escape-action ingestion, link ranges;
  * `src/state.rs`  — `DocumentView` (flow, paging, percent, find_line,
    highlight) and `Search`/`SearchMutator`;
  * `src/ui.rs`     — `render_lines`.

Machine integers (`usize`) are modelled by `Nat`; places where the source
uses `saturating_sub` map to truncated `Nat` subtraction, which has the same
value.  Places where a bare `usize` subtraction or slice index could panic
are noted at the definition.  `f64` arithmetic (used only by `percent`) is
modelled exactly by rationals together with IEEE-754 round-to-nearest-even,
see `F64` below.  Grapheme segmentation and column widths are delegated by
the source to external Unicode crates (`finl_unicode`, `termwiz`); the
embedding is parameterised by the resulting list of
(grapheme, column-width) pairs.
-/

namespace Ate

/-- Palette/default colour attribute (model of termwiz `ColorAttribute`). -/
inductive ColorAttr where
  | default
  | palette (idx : Nat)
  deriving DecidableEq, Repr

/-- One attribute delta (model of termwiz `AttributeChange`), restricted to
the variants `Document::new` can produce. -/
inductive AttributeChange where
  | Intensity (i : Nat)
  | Underline (u : Nat)
  | Italic (b : Bool)
  | Blink (b : Bool)
  | Invisible (b : Bool)
  | StrikeThrough (b : Bool)
  | Foreground (c : ColorAttr)
  | Background (c : ColorAttr)
  | Reverse (b : Bool)
  deriving DecidableEq, Repr

/-- Full resolved style state (model of termwiz `CellAttributes`). -/
structure CellAttributes where
  intensity : Nat := 0
  underline : Nat := 0
  italic : Bool := false
  blink : Bool := false
  invisible : Bool := false
  strikeThrough : Bool := false
  foreground : ColorAttr := ColorAttr.default
  background : ColorAttr := ColorAttr.default
  reverse : Bool := false
  deriving DecidableEq, Repr

def CellAttributes.default : CellAttributes := {}

/-- Model of `CellAttributes::apply_change`. -/
def CellAttributes.applyChange (a : CellAttributes) : AttributeChange → CellAttributes
  | AttributeChange.Intensity i => { a with intensity := i }
  | AttributeChange.Underline u => { a with underline := u }
  | AttributeChange.Italic b => { a with italic := b }
  | AttributeChange.Blink b => { a with blink := b }
  | AttributeChange.Invisible b => { a with invisible := b }
  | AttributeChange.StrikeThrough b => { a with strikeThrough := b }
  | AttributeChange.Foreground c => { a with foreground := c }
  | AttributeChange.Background c => { a with background := c }
  | AttributeChange.Reverse b => { a with reverse := b }

/-- A style change stored in `Document.attrs`.  In the source this is the
wide termwiz `Change` type, but `Document::new` only ever pushes the
`AllAttributes` and `Attribute` variants (the renderer's and flow's other
match arms are `unreachable!()`), so the embedding gives the document the
narrow type. -/
inductive SgrChange where
  | AllAttributes (a : CellAttributes)
  | Attribute (c : AttributeChange)
  deriving DecidableEq, Repr

/-- An operation emitted by `render_lines` (model of the subset of termwiz
`Change` the renderer produces: style ops plus text runs). -/
inductive Change where
  | AllAttributes (a : CellAttributes)
  | Attribute (c : AttributeChange)
  | Text (s : String)
  deriving DecidableEq, Repr

def SgrChange.toChange : SgrChange → Change
  | SgrChange.AllAttributes a => Change.AllAttributes a
  | SgrChange.Attribute c => Change.Attribute c

/-- Model of `LinkRange` from `src/doc.rs`; the hyperlink itself is modelled by its
URI string.  The source field `end` is called `stop` here (`end` is a Lean
keyword). -/
structure LinkRange where
  start : Nat
  stop : Nat
  uri : String
  deriving DecidableEq, Repr

/-- Model of `Document` from `src/doc.rs`. -/
structure Document where
  text : String
  attrs : List (Nat × SgrChange)
  links : List LinkRange
  deriving DecidableEq, Repr

/-- The SGR parameters `Document::new` dispatches on (model of termwiz
`Sgr`); the four variants with no attribute mapping carry no payload
because the source `todo!()`s before looking at it. -/
inductive Sgr where
  | Reset
  | Intensity (i : Nat)
  | Underline (u : Nat)
  | Blink (b : Bool)
  | Italic (b : Bool)
  | Invisible (b : Bool)
  | StrikeThrough (b : Bool)
  | Foreground (c : ColorAttr)
  | Background (c : ColorAttr)
  | Inverse (b : Bool)
  | VerticalAlign
  | UnderlineColor
  | Font
  | Overline
  deriving DecidableEq, Repr

/-- Parsed terminal actions that `Document::new`'s callback dispatches on
(model of the termwiz `Action` cases the source matches). -/
inductive Action where
  | print (c : Char)
  | lineFeed
  | sgr (s : Sgr)
  | setHyperlink (uri : Option String)
  | other
  deriving DecidableEq, Repr

/-- The `match s { ... }` in `Document::new` translating one SGR parameter
into a style change.  `none` models the `todo!()` panics on the four
unsupported variants (vertical alignment, underline colour, font,
overline). -/
def sgrToChange : Sgr → Option SgrChange
  | Sgr.Reset => some (SgrChange.AllAttributes CellAttributes.default)
  | Sgr.Intensity i => some (SgrChange.Attribute (AttributeChange.Intensity i))
  | Sgr.Background b => some (SgrChange.Attribute (AttributeChange.Background b))
  | Sgr.Underline u => some (SgrChange.Attribute (AttributeChange.Underline u))
  | Sgr.Blink b => some (SgrChange.Attribute (AttributeChange.Blink b))
  | Sgr.Italic i => some (SgrChange.Attribute (AttributeChange.Italic i))
  | Sgr.Invisible i => some (SgrChange.Attribute (AttributeChange.Invisible i))
  | Sgr.StrikeThrough s => some (SgrChange.Attribute (AttributeChange.StrikeThrough s))
  | Sgr.Foreground f => some (SgrChange.Attribute (AttributeChange.Foreground f))
  | Sgr.Inverse i => some (SgrChange.Attribute (AttributeChange.Reverse i))
  | Sgr.VerticalAlign => none
  | Sgr.UnderlineColor => none
  | Sgr.Font => none
  | Sgr.Overline => none

/-- The abort caused by hitting one of the `todo!()` arms above while
building a document. -/
inductive DocErr where
  | unsupportedStyle
  deriving DecidableEq, Repr

/-- The mutable state of `Document::new`'s parse callback. -/
structure BState where
  text : String
  attrs : List (Nat × SgrChange)
  links : List LinkRange
  pending : Option (Nat × String)
  deriving DecidableEq, Repr

def BState.init : BState :=
  { text := ""
    attrs := [(0, SgrChange.AllAttributes CellAttributes.default)]
    links := []
    pending := none }

/-- One dispatch of the closure passed to `Parser::parse` in
`Document::new`.  `Except.error` models the process-aborting panic of the
`todo!()` arms. -/
def buildStep (st : BState) : Action → Except DocErr BState
  | Action.print c => Except.ok { st with text := st.text.push c }
  | Action.lineFeed => Except.ok { st with text := st.text.push '\n' }
  | Action.sgr s =>
      match sgrToChange s with
      | some change =>
          Except.ok { st with attrs := st.attrs ++ [(st.text.utf8ByteSize, change)] }
      | none => Except.error DocErr.unsupportedStyle
  | Action.setHyperlink parsedLink =>
      let st' :=
        match st.pending with
        | some (start, link) =>
            { st with links := st.links ++ [(⟨start, st.text.utf8ByteSize, link⟩ : LinkRange)],
                      pending := none }
        | none => st
      Except.ok { st' with pending := parsedLink.map (fun l => (st'.text.utf8ByteSize, l)) }
  | Action.other => Except.ok st

def buildSteps : List Action → BState → Except DocErr BState
  | [], st => Except.ok st
  | a :: rest, st =>
      match buildStep st a with
      | Except.ok st' => buildSteps rest st'
      | Except.error e => Except.error e

/-- The close-pending-link-at-end-of-text epilogue of `Document::new`. -/
def finishBuild (st : BState) : Document :=
  match st.pending with
  | some (start, link) =>
      { text := st.text, attrs := st.attrs,
        links := st.links ++ [⟨start, st.text.utf8ByteSize, link⟩] }
  | none => { text := st.text, attrs := st.attrs, links := st.links }

/-- Model of `Document::new`, as a function of the parsed action stream. -/
def documentNew (acts : List Action) : Except DocErr Document :=
  match buildSteps acts BState.init with
  | Except.ok st => Except.ok (finishBuild st)
  | Except.error e => Except.error e
/-- Modelled from the spec: the byte-to-action escape parser is the external
`termwiz::escape::parser::Parser` crate, not code of this repository.  Spec
§6 fixes the recognised input forms: SGR sequences `ESC [ params m`, OSC-8
hyperlink sequences `ESC ] 8 ; params ; URI ESC \` (BEL also terminates an
OSC), line feed as the only recognised line break, and other control codes
dropped.  The scanner state while consuming one escape sequence. -/
inductive PState where
  | ground
  | esc
  | csi (params : List Char)
  | osc (content : List Char)
  | oscEsc (content : List Char)

/-- Modelled from the spec: translation of one numeric SGR parameter to a
termwiz `Sgr` value (spec §6: colour/intensity/underline/blink/italic/
invisible/strikethrough attributes and full reset; §4.1 names the
unsupported variants vertical alignment, underline colour, font selection
and overline). -/
def sgrOfCode (n : Nat) : Option Sgr :=
  if n = 0 then some Sgr.Reset
  else if n = 1 then some (Sgr.Intensity 1)
  else if n = 2 then some (Sgr.Intensity 2)
  else if n = 22 then some (Sgr.Intensity 0)
  else if n = 3 then some (Sgr.Italic true)
  else if n = 23 then some (Sgr.Italic false)
  else if n = 4 then some (Sgr.Underline 1)
  else if n = 21 then some (Sgr.Underline 2)
  else if n = 24 then some (Sgr.Underline 0)
  else if n = 5 then some (Sgr.Blink true)
  else if n = 25 then some (Sgr.Blink false)
  else if n = 7 then some (Sgr.Inverse true)
  else if n = 27 then some (Sgr.Inverse false)
  else if n = 8 then some (Sgr.Invisible true)
  else if n = 28 then some (Sgr.Invisible false)
  else if n = 9 then some (Sgr.StrikeThrough true)
  else if n = 29 then some (Sgr.StrikeThrough false)
  else if 30 ≤ n ∧ n ≤ 37 then some (Sgr.Foreground (ColorAttr.palette (n - 30)))
  else if n = 39 then some (Sgr.Foreground ColorAttr.default)
  else if 40 ≤ n ∧ n ≤ 47 then some (Sgr.Background (ColorAttr.palette (n - 40)))
  else if n = 49 then some (Sgr.Background ColorAttr.default)
  else if 10 ≤ n ∧ n ≤ 19 then some Sgr.Font
  else if n = 53 then some Sgr.Overline
  else if n = 55 then some Sgr.Overline
  else if n = 58 ∨ n = 59 then some Sgr.UnderlineColor
  else if n = 73 ∨ n = 74 ∨ n = 75 then some Sgr.VerticalAlign
  else none

/-- Split on `;` (structural; `String.splitOn` is well-founded-recursive
and would block evaluation). -/
def splitSemis : List Char → List (List Char)
  | [] => [[]]
  | c :: rest =>
      let r := splitSemis rest
      if c = ';' then [] :: r
      else
        match r with
        | f :: fs => (c :: f) :: fs
        | [] => [[c]]

def natOfChars (cs : List Char) : Nat :=
  cs.foldl (fun n c => n * 10 + (c.toNat - 48)) 0

/-- Modelled from the spec: split a CSI parameter string on `;` and emit one
`Action.sgr` per recognised parameter (an empty parameter list is parameter
`0`, i.e. full reset). -/
def sgrActions (params : List Char) : List Action :=
  (splitSemis params).filterMap fun f =>
    (sgrOfCode (if f = [] then 0 else natOfChars f)).map Action.sgr

/-- Modelled from the spec: interpret a complete OSC payload.  Payload
`8 ; params ; URI` sets a hyperlink; an empty URI is a close (carries no
URI). -/
def oscAction (content : List Char) : List Action :=
  match content with
  | '8' :: ';' :: rest =>
      let afterParams := (rest.dropWhile (fun c => c ≠ ';'))
      match afterParams with
      | ';' :: uri => [Action.setHyperlink (if uri = [] then none else some (String.mk uri))]
      | _ => [Action.other]
  | _ => [Action.other]

/-- Modelled from the spec: one scanner step. -/
def parseStep (st : PState) (c : Char) : PState × List Action :=
  match st with
  | PState.ground =>
      if c = '\x1b' then (PState.esc, [])
      else if c = '\n' then (PState.ground, [Action.lineFeed])
      else if c.toNat < 32 then (PState.ground, [Action.other])
      else (PState.ground, [Action.print c])
  | PState.esc =>
      if c = '[' then (PState.csi [], [])
      else if c = ']' then (PState.osc [], [])
      else (PState.ground, [Action.other])
  | PState.csi ps =>
      if c.isDigit ∨ c = ';' ∨ c = ':' then (PState.csi (ps ++ [c]), [])
      else if c = 'm' then (PState.ground, sgrActions ps)
      else (PState.ground, [Action.other])
  | PState.osc content =>
      if c = '\x07' then (PState.ground, oscAction content)
      else if c = '\x1b' then (PState.oscEsc content, [])
      else (PState.osc (content ++ [c]), [])
  | PState.oscEsc content =>
      if c = '\\' then (PState.ground, oscAction content)
      else (PState.ground, [Action.other])

def parseChars : PState → List Char → List Action
  | _, [] => []
  | st, c :: rest =>
      let (st', acts) := parseStep st c
      acts ++ parseChars st' rest

/-- Modelled from the spec: the full byte-stream-to-action parser. -/
def parseInput (s : String) : List Action :=
  parseChars PState.ground s.toList
/-- An exact (unnormalised) rational `num / den` with positive
denominator; the invariant `0 < den` is maintained by every constructor
below.  A hand-rolled pair type is used instead of `ℚ` so that concrete
values evaluate inside the kernel (`Rat`'s arithmetic is `@[irreducible]`
in this toolchain). -/
structure PosRat where
  num : Int
  den : Int
  deriving DecidableEq, Repr

def prOfNat (n : Nat) : PosRat := ⟨n, 1⟩

def prNeg (a : PosRat) : PosRat := ⟨-a.num, a.den⟩

/-- Cross-multiplied strict order (denominators are positive). -/
def prLt (a b : PosRat) : Prop := a.num * b.den < b.num * a.den

instance (a b : PosRat) : Decidable (prLt a b) := by unfold prLt; infer_instance

/-- Cross-multiplied order (denominators are positive). -/
def prLe (a b : PosRat) : Prop := a.num * b.den ≤ b.num * a.den

instance (a b : PosRat) : Decidable (prLe a b) := by unfold prLe; infer_instance

def prMul (a b : PosRat) : PosRat := ⟨a.num * b.num, a.den * b.den⟩

/-- Division `a / b` (any sign of `b.num`; division by an exact zero is guarded at
the call sites). -/
def prDiv (a b : PosRat) : PosRat :=
  if 0 ≤ b.num then ⟨a.num * b.den, a.den * b.num⟩
  else ⟨-(a.num * b.den), a.den * (-b.num)⟩

/-- Scaling `a * 2 ^ k` for an integer exponent. -/
def prMulPow2 (a : PosRat) (k : Int) : PosRat :=
  if 0 ≤ k then ⟨a.num * ((2 ^ k.toNat : Nat) : Int), a.den⟩
  else ⟨a.num, a.den * ((2 ^ (-k).toNat : Nat) : Int)⟩

/-- Power `2 ^ k` as an exact rational. -/
def prPow2 (k : Int) : PosRat := prMulPow2 ⟨1, 1⟩ k

/-- Floor (the denominator is positive, so `Int.fdiv` is the rational
floor). -/
def prFloor (a : PosRat) : Int := Int.fdiv a.num a.den

/-- Round to the nearest integer, ties to even. -/
def roundHalfEven (q : PosRat) : Int :=
  let f := prFloor q
  let rem2 := 2 * (q.num - f * q.den)
  if rem2 < q.den then f
  else if q.den < rem2 then f + 1
  else if f % 2 = 0 then f else f + 1

/-- Fuelled base-2 logarithm (structural stand-in for `Nat.log2`, which is
well-founded-recursive and does not evaluate in the kernel). -/
def log2Fuel : Nat → Nat → Nat
  | 0, _ => 0
  | fuel + 1, n => if 2 ≤ n then log2Fuel fuel (n / 2) + 1 else 0

def natLog2 (n : Nat) : Nat := log2Fuel n n

/-- Floor of the base-2 logarithm of a positive rational. -/
def log2floorQ (q : PosRat) : Int :=
  let e0 : Int := (natLog2 q.num.natAbs : Int) - (natLog2 q.den.natAbs : Int)
  if prLt q (prPow2 e0) then e0 - 1
  else if prLt q (prPow2 (e0 + 1)) then e0
  else e0 + 1

/-- Exact model of an IEEE-754 binary64 value.  A `finite q` always carries
the exact rational value of the double. -/
inductive F64 where
  | finite (q : PosRat)
  | inf
  | negInf
  | nan
  deriving DecidableEq, Repr

/-- Round a positive rational to the nearest binary64
(round-to-nearest-even), overflowing to `inf` and flushing tiny values
through the subnormal quantum `2 ^ (-1074)`. -/
def roundPos (q : PosRat) : F64 :=
  let e := log2floorQ q
  if e < -1022 then
    F64.finite (prMulPow2 ⟨roundHalfEven (prMulPow2 q 1074), 1⟩ (-1074))
  else
    let m := roundHalfEven (prMulPow2 q (52 - e))
    let (m, e) := if m = 2 ^ 53 then ((2 ^ 52 : Int), e + 1) else (m, e)
    if 1023 < e then F64.inf else F64.finite (prMulPow2 ⟨m, 1⟩ (e - 52))

/-- Round any rational to the nearest binary64. -/
def roundQ (q : PosRat) : F64 :=
  if q.num = 0 then F64.finite ⟨0, 1⟩
  else if 0 < q.num then roundPos q
  else
    match roundPos (prNeg q) with
    | F64.finite r => F64.finite (prNeg r)
    | F64.inf => F64.negInf
    | other => other

/-- Conversion `usize as f64`. -/
def natToF64 (n : Nat) : F64 := roundQ (prOfNat n)

/-- IEEE binary64 division (signs restricted to the shapes `percent`
produces: non-negative operands). -/
def divF64 : F64 → F64 → F64
  | F64.finite a, F64.finite b =>
      if b.num = 0 then
        (if a.num = 0 then F64.nan else if 0 < a.num then F64.inf else F64.negInf)
      else roundQ (prDiv a b)
  | F64.inf, F64.finite _ => F64.inf
  | F64.finite _, F64.inf => F64.finite ⟨0, 1⟩
  | _, _ => F64.nan

/-- IEEE binary64 multiplication (same restriction). -/
def mulF64 : F64 → F64 → F64
  | F64.finite a, F64.finite b => roundQ (prMul a b)
  | F64.inf, F64.finite b =>
      if b.num = 0 then F64.nan else if 0 < b.num then F64.inf else F64.negInf
  | F64.finite a, F64.inf =>
      if a.num = 0 then F64.nan else if 0 < a.num then F64.inf else F64.negInf
  | F64.inf, F64.inf => F64.inf
  | _, _ => F64.nan

/-- Model of `f64::floor`. -/
def floorF64 : F64 → F64
  | F64.finite q => F64.finite ⟨prFloor q, 1⟩
  | x => x

/-- Cast `as u8` on an `f64`: truncate toward zero, saturate to `0..=255`,
`NaN` to `0`. -/
def f64toU8 : F64 → Nat
  | F64.finite q =>
      if q.num ≤ 0 then 0
      else if prLe ⟨255, 1⟩ q then 255
      else (prFloor q).toNat
  | F64.inf => 255
  | F64.negInf => 0
  | F64.nan => 0

/-- Model of `Line` from `src/state.rs`: one wrapped display row, valid for a
particular width. -/
structure Line where
  start_byte : Nat
  start_attributes : CellAttributes
  deriving DecidableEq, Repr

/-- The attribute-application step of `DocumentView::flow`'s inner `while`
loop: consume every pending change whose offset is at or before `byte`.
Note the source resets to `CellAttributes::default()` on `AllAttributes`
without reading the payload. -/
def applyFlowAttrs : List (Nat × SgrChange) → Nat → CellAttributes →
    List (Nat × SgrChange) × CellAttributes
  | [], _, a => ([], a)
  | (b, c) :: rest, byte, a =>
      if b ≤ byte then
        let a' := match c with
          | SgrChange.AllAttributes _ => CellAttributes.default
          | SgrChange.Attribute d => a.applyChange d
        applyFlowAttrs rest byte a'
      else ((b, c) :: rest, a)

/-- The loop of `DocumentView::flow`, over the document's grapheme clusters
paired with their terminal column widths (the segmentation itself is the
external Unicode library).  Arguments after the grapheme list: current
byte offset, `cells_in_line`, current resolved `attributes`, pending
attribute changes. -/
def flowAux (width : Nat) : List (String × Nat) → Nat → Nat → CellAttributes →
    List (Nat × SgrChange) → List Line
  | [], _, _, _, _ => []
  | (g, cells) :: rest, byte, cellsInLine, attributes, attrs =>
      let brk := decide (width < cellsInLine + cells) || (g == "\n")
      let pushed : List Line :=
        if brk then [⟨if g == "\n" then byte + 1 else byte, attributes⟩] else []
      let cellsInLine := if brk then 0 else cellsInLine
      if g == "\n" then
        pushed ++ flowAux width rest (byte + g.utf8ByteSize) cellsInLine attributes attrs
      else
        let (attrs', attributes') := applyFlowAttrs attrs byte attributes
        pushed ++ flowAux width rest (byte + g.utf8ByteSize) (cellsInLine + cells)
          attributes' attrs'

/-- Model of `DocumentView::flow`. -/
def flow (width : Nat) (gs : List (String × Nat)) (attrs : List (Nat × SgrChange)) :
    List Line :=
  ⟨0, CellAttributes.default⟩ :: flowAux width gs 0 0 CellAttributes.default attrs

/-- Model of `DocumentView` from `src/state.rs` (the `doc : Rc<Document>` field is
passed separately where needed). -/
structure DocumentView where
  highlights : List (Nat × Nat)
  line : Nat
  width : Nat
  height : Nat
  lines : List Line
  deriving DecidableEq, Repr

/-- Model of `DocumentView::backward` (`saturating_sub` is `Nat` subtraction). -/
def DocumentView.backward (v : DocumentView) (lines : Nat) : DocumentView :=
  { v with line := v.line - lines }

/-- Model of `DocumentView::forward`. -/
def DocumentView.forward (v : DocumentView) (lines : Nat) : DocumentView :=
  { v with line := min (v.lines.length - v.height) (v.line + max 1 lines) }

/-- Model of `DocumentView::find_line`: the partition point on the sorted line starts
is the length of the satisfying prefix.  The source then subtracts 1 with a
bare `usize` subtraction; `C10_flow_total` shows the partition point is
never 0 on flow-built caches, so truncated subtraction agrees. -/
def DocumentView.find_line (v : DocumentView) (byte : Nat) : Nat :=
  (v.lines.takeWhile (fun l => decide (l.start_byte ≤ byte))).length - 1

/-- Model of `DocumentView::make_line_visible`. -/
def DocumentView.make_line_visible (v : DocumentView) (line : Nat) : DocumentView :=
  if line - 3 < v.line ∨ v.line + v.height < line + 3 then
    { v with line := line - 3 }
  else v

/-- Model of `DocumentView::highlight`. -/
def DocumentView.highlight (v : DocumentView) (start stop : Nat) : DocumentView :=
  let v' := { v with highlights := [(start, stop)] }
  v'.make_line_visible (v'.find_line start)

/-- Model of `DocumentView::percent`.  The `else` arm is the source's
`(self.line as f64 / final_page_line as f64) * 100.0`, floored and cast
to `u8`. -/
def DocumentView.percent (v : DocumentView) : Option Nat :=
  if v.line = 0 ∨ v.lines.length < v.height then some 0
  else
    let finalPageLine := v.lines.length - v.height
    if finalPageLine = v.line then some 100
    else some (f64toU8 (floorF64 (mulF64 (divF64 (natToF64 v.line) (natToF64 finalPageLine))
      (natToF64 100))))
/-- Is `needle` a leading segment of `hay`? -/
def leadsList : List Char → List Char → Bool
  | [], _ => true
  | _ :: _, [] => false
  | a :: as, b :: bs => a == b && leadsList as bs

/-- Rust `str::contains` with a string pattern: substring containment.
Byte-level and char-level matching agree because UTF-8 is
self-synchronising. -/
def containsSub (needle : List Char) : List Char → Bool
  | [] => leadsList needle []
  | b :: bs => leadsList needle (b :: bs) || containsSub needle bs

/-- The byte slice `&doc.text[s..e]`. -/
def sliceBytes (t : String) (s e : Nat) : String :=
  t.extract ⟨s⟩ ⟨e⟩

/-- Model of `Search` from `src/state.rs` (the document and the `open_link` callback
are passed separately). -/
structure Search where
  query : String
  selected_idx : Option Nat
  matches_ : List Nat
  deriving DecidableEq, Repr

/-- Model of `Search::new`: every link matches the empty query. -/
def Search.new (doc : Document) : Search :=
  { query := ""
    selected_idx := none
    matches_ := (List.range doc.links.length) }

/-- Model of `Search::set_selected_idx`: only acts when the index is in bounds; also
applies the selected link's highlight to the view.  The source's
`self.doc.links[...]` index is modelled with `getD`; it is in bounds in
every reachable state because `matches` only holds link indices. -/
def Search.set_selected_idx (doc : Document) (s : Search) (selectedIdx : Nat)
    (view : DocumentView) : Search × DocumentView :=
  if selectedIdx < s.matches_.length then
    let link := doc.links.getD (s.matches_.getD selectedIdx 0) ⟨0, 0, ""⟩
    ({ s with selected_idx := some selectedIdx }, view.highlight link.start link.stop)
  else (s, view)

/-- Model of `Search::update_matches`.  The source's `self.matches[...]` index is in
bounds whenever `matches` is non-empty (`set_selected_idx` never stores an
out-of-bounds index), so it is modelled with `getD`; `partition_point` on
the ascending `matches` list is the length of the satisfying prefix. -/
def Search.update_matches (doc : Document) (s : Search) (view : DocumentView) :
    Search × DocumentView :=
  let previousLinkIdx :=
    if 0 < s.matches_.length then s.matches_.getD (s.selected_idx.getD 0) 0 else 0
  let matches' :=
    ((doc.links.enum).filter (fun p =>
      containsSub s.query.toList (sliceBytes doc.text p.2.start p.2.stop).toList)).map
      Prod.fst
  let pp := (matches'.takeWhile (fun linkIdx => decide (linkIdx < previousLinkIdx))).length
  let newSelectedIdx := if pp = matches'.length then matches'.length - 1 else pp
  Search.set_selected_idx doc { s with matches_ := matches' } newSelectedIdx view

/-- Model of `SearchMutator::select_next`. -/
def selectNext (doc : Document) (s : Search) (view : DocumentView) :
    Search × DocumentView :=
  Search.set_selected_idx doc s
    (match s.selected_idx with
     | some idx => if idx < s.matches_.length - 1 then idx + 1 else 0
     | none => 0)
    view

/-- Model of `SearchMutator::select_prev`. -/
def selectPrev (doc : Document) (s : Search) (view : DocumentView) :
    Search × DocumentView :=
  Search.set_selected_idx doc s
    (match s.selected_idx with
     | some 0 => s.matches_.length - 1
     | none => s.matches_.length - 1
     | some idx => idx - 1)
    view

/-- Model of `SearchMutator::push_query_char`. -/
def pushQueryChar (doc : Document) (s : Search) (view : DocumentView) (c : Char) :
    Search × DocumentView :=
  Search.update_matches doc { s with query := s.query.push c } view

/-- Model of `SearchMutator::pop_query_char` (`String::pop` removes the last char). -/
def popQueryChar (doc : Document) (s : Search) (view : DocumentView) :
    Search × DocumentView :=
  Search.update_matches doc { s with query := s.query.dropRight 1 } view

/-- Model of `SearchMutator::push_query_str`. -/
def pushQueryStr (doc : Document) (s : Search) (view : DocumentView) (str : String) :
    Search × DocumentView :=
  Search.update_matches doc { s with query := s.query ++ str } view
/-- One ghost observation per emitted grapheme of `render_lines`: the byte
offset, the reverse state the emitted change stream is in when the text run
is pushed, the internal `reversed` variable at that moment, and the
grapheme. -/
structure TraceEntry where
  byte : Nat
  dispRev : Bool
  underlying : Bool
  grapheme : String
  deriving DecidableEq, Repr

/-- The mutable state of `render_lines`.  `changes` is the output vector;
`curRev` is the reverse state the pushed change stream is currently in
(bookkeeping derived from the pushes, used only by the ghost trace);
`attrs` and `hls` are the not-yet-consumed suffixes of `doc.attrs` and
`highlights` (the source's `attr_idx` / `highlight_idx` cursors). -/
structure RenderState where
  changes : List Change
  curRev : Bool
  trace : List TraceEntry
  byte : Nat
  reversed : Bool
  cells_in_line : Nat
  line : Nat
  attrs : List (Nat × SgrChange)
  hls : List (Nat × Nat)
  active : Option (Nat × Nat)
  deriving DecidableEq, Repr

/-- How a pushed change moves the emitted stream's reverse state. -/
def updCurRev (cur : Bool) : Change → Bool
  | Change.AllAttributes a => a.reverse
  | Change.Attribute (AttributeChange.Reverse b) => b
  | _ => cur

/-- Model of `changes.push(...)`. -/
def pushChange (st : RenderState) (c : Change) : RenderState :=
  { st with changes := st.changes ++ [c], curRev := updCurRev st.curRev c }

/-- One iteration of `render_lines`' inner `while` over pending attribute
changes at or before the current byte.  On a reverse delta the underlying
`reversed` is updated to the authored value but the emitted change is
inverted while inside a highlight; a full `AllAttributes` is treated the
same way via its reverse flag. -/
def applyRenderAttr (st : RenderState) : SgrChange → RenderState
  | SgrChange.Attribute (AttributeChange.Reverse newReverse) =>
      let st := { st with reversed := newReverse }
      pushChange st (Change.Attribute (AttributeChange.Reverse
        (if st.active.isSome then !newReverse else newReverse)))
  | SgrChange.AllAttributes a =>
      let st := { st with reversed := a.reverse }
      pushChange st (Change.AllAttributes
        (if st.active.isSome then { a with reverse := !a.reverse } else a))
  | SgrChange.Attribute c => pushChange st (Change.Attribute c)

def applyRenderAttrs : List (Nat × SgrChange) → RenderState → RenderState
  | [], st => { st with attrs := [] }
  | (b, c) :: rest, st =>
      if b ≤ st.byte then applyRenderAttrs rest (applyRenderAttr st c)
      else { st with attrs := (b, c) :: rest }

/-- The highlight enter/leave step at the top of `render_lines`' loop body:
leaving an ended range restores the underlying reverse state and advances
the highlight cursor; entering a reached range emits the inverted reverse
state. -/
def toggleHighlight (st : RenderState) : RenderState :=
  match st.active with
  | some hl =>
      if hl.2 ≤ st.byte then
        { pushChange st (Change.Attribute (AttributeChange.Reverse st.reversed)) with
            active := none, hls := st.hls.drop 1 }
      else st
  | none =>
      match st.hls.head? with
      | some hl =>
          if hl.1 ≤ st.byte then
            { pushChange st (Change.Attribute (AttributeChange.Reverse (!st.reversed))) with
                active := some hl }
          else st
      | none => st

/-- Emitting the grapheme text run (with the ghost trace observation). -/
def emitText (st : RenderState) (g : String) (cells : Nat) : RenderState :=
  let dispNow := st.curRev
  let st := pushChange st (Change.Text g)
  { st with
      trace := st.trace ++ [⟨st.byte, dispNow, st.reversed, g⟩],
      cells_in_line := st.cells_in_line + cells }

/-- The body of `render_lines`' loop for a non-line-feed grapheme: leave or
enter a highlight range (emitting the corresponding reverse toggle), apply
pending attribute changes, then emit the grapheme itself. -/
def emitGrapheme (st : RenderState) (g : String) (cells : Nat) : RenderState :=
  let st := toggleHighlight st
  let st := applyRenderAttrs st.attrs st
  emitText st g cells

/-- The grapheme loop of `render_lines`. -/
def renderLoop (width lastDisplayedLine : Nat) :
    List (String × Nat) → RenderState → RenderState
  | [], st => st
  | (g, cells) :: rest, st =>
    if decide (width < st.cells_in_line + cells) || (g == "\n") then
      if st.line = lastDisplayedLine then st
      else
        let st1 := pushChange st (Change.Text "\r\n")
        let st2 := { st1 with line := st1.line + 1, cells_in_line := 0 }
        let st3 := if g == "\n" then st2 else emitGrapheme st2 g cells
        renderLoop width lastDisplayedLine rest { st3 with byte := st3.byte + g.utf8ByteSize }
    else
      let st3 := if g == "\n" then st else emitGrapheme st g cells
      renderLoop width lastDisplayedLine rest { st3 with byte := st3.byte + g.utf8ByteSize }

/-- Model of `render_lines` from `src/ui.rs`, parameterised (like the source's
iterator) by the grapheme clusters of `doc.text[byte..]` paired with their
column widths.  The `lines` lookup is modelled with `getD`; the caller
contract is `line < lines.len()`.  The source takes
`min(view.lines().len(), line + height) - 1` with bare subtraction; on the
always-non-empty flow caches it never underflows, and `Nat` subtraction
agrees there. -/
def render_lines (docAttrs : List (Nat × SgrChange)) (lines : List Line)
    (line height width : Nat) (highlights : List (Nat × Nat))
    (gs : List (String × Nat)) : RenderState :=
  let l0 := lines.getD line ⟨0, CellAttributes.default⟩
  let byte := l0.start_byte
  let st0 : RenderState :=
    { changes := [Change.AllAttributes l0.start_attributes]
      curRev := l0.start_attributes.reverse
      trace := []
      byte := byte
      reversed := l0.start_attributes.reverse
      cells_in_line := 0
      line := line
      attrs := docAttrs.dropWhile (fun p => decide (p.1 < byte))
      hls := highlights.dropWhile (fun p => decide (p.2 ≤ byte))
      active := none }
  renderLoop width (min lines.length (line + height) - 1) gs st0
/-- Pair each grapheme with its byte offset, starting at `base`. -/
def annotate : List (String × Nat) → Nat → List (Nat × String)
  | [], _ => []
  | (g, _) :: rest, base => (base, g) :: annotate rest (base + g.utf8ByteSize)

/-- The graphemes a line list assigns to each row, concatenated in row
order: row `i` owns the graphemes whose start offset lies in
`[starts_i, starts_(i+1))`, and the last row owns everything from its start
on. -/
def sliceConcat : List Nat → List (Nat × String) → List String
  | [], _ => []
  | [b], annot => (annot.filter (fun p => decide (b ≤ p.1))).map Prod.snd
  | b0 :: b1 :: rest, annot =>
      ((annot.filter (fun p => decide (b0 ≤ p.1) && decide (p.1 < b1))).map Prod.snd)
        ++ sliceConcat (b1 :: rest) annot

def Action.isSetHyperlink : Action → Bool
  | Action.setHyperlink _ => true
  | _ => false

/-- The number of OSC-8 actions that open a hyperlink (carry a URI). -/
def countHyperOpens (acts : List Action) : Nat :=
  (acts.filter (fun a =>
    match a with
    | Action.setHyperlink (some _) => true
    | _ => false)).length

/-- The amended C3 statement of `percent`, written from the spec side:
0 when at the top or when the line cache is shorter than the page; 100 at
the final scrollable position; otherwise the IEEE-double evaluation of
`floor(100 * line / (len - height))` saturating-cast to `u8`. -/
def percentSpec (line len height : Nat) : Option Nat :=
  if line = 0 then some 0
  else if len < height then some 0
  else if line = len - height then some 100
  else some (f64toU8 (floorF64 (mulF64 (divF64 (natToF64 line) (natToF64 (len - height)))
    (natToF64 100))))

instance : Inhabited TraceEntry := ⟨⟨0, false, false, ""⟩⟩

/-- Pointwise relation between the ghost traces of a highlighted and an
unhighlighted render of the same inputs: same bytes, same graphemes, same
underlying reverse state, and inside `[s, e)` the displayed reverse states
are opposite. -/
def TraceRel (s e : Nat) (tA tB : List TraceEntry) : Prop :=
  tA.length = tB.length ∧
  ∀ k, k < tA.length →
    (tA.getD k default).byte = (tB.getD k default).byte ∧
    (tA.getD k default).grapheme = (tB.getD k default).grapheme ∧
    (tA.getD k default).underlying = (tB.getD k default).underlying ∧
    (s ≤ (tA.getD k default).byte → (tA.getD k default).byte < e →
      (tA.getD k default).dispRev = !(tB.getD k default).dispRev)

/-- The highlight cursor of the run with `highlights = [(s, e)]` is always
in one of three phases: before the range, inside it, or past it. -/
def HlInv (s e byte : Nat) (active : Option (Nat × Nat)) (hls : List (Nat × Nat)) : Prop :=
  (active = none ∧ hls = [(s, e)]) ∨
  (active = some (s, e) ∧ hls = [(s, e)]) ∨
  (active = none ∧ hls = [] ∧ e ≤ byte)

/-- Invariant tying a render state of the highlighted run (`stA`) to the
corresponding state of the unhighlighted run (`stB`). -/
def RInv (s e : Nat) (stA stB : RenderState) : Prop :=
  stA.byte = stB.byte ∧
  stA.cells_in_line = stB.cells_in_line ∧
  stA.line = stB.line ∧
  stA.reversed = stB.reversed ∧
  stA.attrs = stB.attrs ∧
  stB.active = none ∧
  stB.hls = [] ∧
  stB.curRev = stB.reversed ∧
  stA.curRev = (if stA.active.isSome then !stA.reversed else stA.reversed) ∧
  HlInv s e stA.byte stA.active stA.hls ∧
  TraceRel s e stA.trace stB.trace
/-- One-column single-char graphemes of an ASCII string (what the external
Unicode segmentation produces on plain ASCII input). -/
def asciiGraphemes (s : String) : List (String × Nat) :=
  s.toList.map (fun c => (String.mk [c], 1))

/-- Concrete fixture: a three-link document. -/
def doc3 : Document :=
  { text := "012"
    attrs := [(0, SgrChange.AllAttributes CellAttributes.default)]
    links := [⟨0, 1, "a"⟩, ⟨1, 2, "b"⟩, ⟨2, 3, "c"⟩] }

/-- Concrete fixture: a one-link document whose link text is `ab`. -/
def doc1 : Document :=
  { text := "ab"
    attrs := [(0, SgrChange.AllAttributes CellAttributes.default)]
    links := [⟨0, 2, "u"⟩] }

/-- Concrete fixture: a minimal view. -/
def view1 : DocumentView :=
  { highlights := [], line := 0, width := 80, height := 24
    lines := [⟨0, CellAttributes.default⟩] }
/-!  Theorems.  -/

set_option maxRecDepth 100000

/-- C1: document construction is claimed never to abort on an SGR code with
no defined attribute mapping.  The code violates this: the `todo!()` arm
for overline (SGR 53, byte stream `ESC [ 5 3 m`) panics, aborting
construction — modelled as the `unsupportedStyle` error. -/
theorem C1_sgr_overline_aborts_construction :
    documentNew (parseInput "\x1b[53m") = Except.error DocErr.unsupportedStyle := by
  rfl

/-- C4: `backward(n)` sets `line` to `max(0, line - n)` (truncated `Nat`
subtraction), `forward(n)` sets `line` to
`min(len(lines) - height, line + max(1, n))` with the bound truncated at 0
for short documents, and iterating either operation clamps at the last
full page and at line 0 respectively. -/
theorem C4_paging_boundaries (v : DocumentView) (n k : Nat) :
    (v.backward n).line = v.line - n ∧
    (v.forward n).line = min (v.lines.length - v.height) (v.line + max 1 n) ∧
    ((fun w => DocumentView.backward w n)^[k] v).line = v.line - k * n ∧
    ((fun w => DocumentView.forward w n)^[k + 1] v).line =
      min (v.lines.length - v.height) (v.line + (k + 1) * max 1 n) := by
  refine ⟨rfl, rfl, ?_, ?_⟩
  · induction k generalizing v with
    | zero => simp
    | succ k ih =>
        rw [Function.iterate_succ_apply, ih]
        simp only [DocumentView.backward]
        have h1 : (k + 1) * n = k * n + n := by ring
        rw [h1]
        omega
  · induction k generalizing v with
    | zero => simp [DocumentView.forward]
    | succ k ih =>
        rw [Function.iterate_succ_apply, ih]
        simp only [DocumentView.forward]
        have h1 : (k + 1 + 1) * max 1 n = (k + 1) * max 1 n + max 1 n := by ring
        rw [h1]
        generalize (k + 1) * max 1 n = A
        omega

/-- C3 (amended): `percent()` returns 0 when `line = 0` or
`len(lines) < height`, 100 at the final scrollable position, and otherwise
the IEEE-double evaluation of `floor(100 * line / (len(lines) - height))`
saturating-cast to `u8`. -/
theorem C3_percent_characterization (v : DocumentView) :
    v.percent = percentSpec v.line v.lines.length v.height := by
  simp only [DocumentView.percent, percentSpec]
  split_ifs with h1 h2 h3 h4 h5 h6 <;> first | rfl | omega

/-- C3 counterexample: the claimed formula fails on three kinds of states.
With 10 lines and height 10 the whole document fits in one page and the
claim says `percent = 0`, but at `line = 5` the code divides by zero and the
saturating `u8` cast of `+inf` yields 255.  At `line = 29` with
`len - height = 100` the exact value `floor(100 * 29 / 100) = 29`, but the
f64 double rounding yields 28.  At `line = 296` with `len - height = 4` the
exact floor is 7400, but the `u8` cast saturates to 255. -/
theorem C3_counterexample :
    (DocumentView.percent ⟨[], 5, 80, 10, List.replicate 10 ⟨0, CellAttributes.default⟩⟩ =
        some 255 ∧
      (List.replicate 10 (⟨0, CellAttributes.default⟩ : Line)).length ≤ 10 ∧ (5 : Nat) ≠ 0) ∧
    (DocumentView.percent ⟨[], 29, 80, 10, List.replicate 110 ⟨0, CellAttributes.default⟩⟩ =
        some 28 ∧
      100 * 29 / (110 - 10) = 29) ∧
    (DocumentView.percent ⟨[], 296, 80, 296, List.replicate 300 ⟨0, CellAttributes.default⟩⟩ =
        some 255 ∧
      100 * 296 / (300 - 296) = 7400) := by
  exact ⟨⟨by decide, by decide, by decide⟩, ⟨by decide, by norm_num⟩, ⟨by decide, by norm_num⟩⟩
/-- C8: with non-empty matches, `select_next` advances the selection by one
with wraparound to 0 past the last match, and `select_prev` moves it back
by one with wraparound to the last match (a missing selection acts like the
wrapped position). -/
theorem C8_select_wraparound (doc : Document) (s : Search) (v : DocumentView)
    (hne : s.matches_ ≠ [])
    (hb : ∀ i, s.selected_idx = some i → i < s.matches_.length) :
    (selectNext doc s v).1.selected_idx =
      some (match s.selected_idx with
            | some i => (i + 1) % s.matches_.length
            | none => 0) ∧
    (selectPrev doc s v).1.selected_idx =
      some (match s.selected_idx with
            | some i => (i + (s.matches_.length - 1)) % s.matches_.length
            | none => s.matches_.length - 1) := by
  have hlen : 0 < s.matches_.length := List.length_pos.mpr hne
  constructor
  · simp only [selectNext, Search.set_selected_idx]
    cases hsel : s.selected_idx with
    | none => simp [hlen]
    | some i =>
        have hi : i < s.matches_.length := hb i hsel
        by_cases hlast : i < s.matches_.length - 1
        · have h1 : i + 1 < s.matches_.length := by omega
          have h2 : (i + 1) % s.matches_.length = i + 1 := Nat.mod_eq_of_lt h1
          simp [hlast, h1, h2]
        · have h1 : i = s.matches_.length - 1 := by omega
          have h2 : (i + 1) % s.matches_.length = 0 := by
            rw [h1]
            have : s.matches_.length - 1 + 1 = s.matches_.length := by omega
            rw [this, Nat.mod_self]
          simp [hlast, hlen, h2]
  · simp only [selectPrev, Search.set_selected_idx]
    cases hsel : s.selected_idx with
    | none =>
        have h1 : s.matches_.length - 1 < s.matches_.length := by omega
        simp [h1]
    | some i =>
        have hi : i < s.matches_.length := hb i hsel
        match i with
        | 0 =>
            have h1 : s.matches_.length - 1 < s.matches_.length := by omega
            have h2 : (0 + (s.matches_.length - 1)) % s.matches_.length =
                s.matches_.length - 1 := by
              rw [Nat.zero_add]
              exact Nat.mod_eq_of_lt (by omega)
            simp [h1, h2]
        | j + 1 =>
            have h1 : j < s.matches_.length := by omega
            have h2 : (j + 1 + (s.matches_.length - 1)) % s.matches_.length = j := by
              have h3 : j + 1 + (s.matches_.length - 1) = j + s.matches_.length := by omega
              rw [h3, Nat.add_mod_right, Nat.mod_eq_of_lt h1]
            simp [h1, h2, Nat.lt_of_succ_lt hi]

/-- C8 witness: three matches, selection at 0: `select_next` yields 1,
`select_prev` wraps to 2. -/
theorem C8_witness :
    (selectNext doc3 ⟨"", some 0, [0, 1, 2]⟩ view1).1.selected_idx =
      some ((0 + 1) % [0, 1, 2].length) ∧
    (selectPrev doc3 ⟨"", some 0, [0, 1, 2]⟩ view1).1.selected_idx =
      some ((0 + ([0, 1, 2].length - 1)) % [0, 1, 2].length) :=
  C8_select_wraparound doc3 ⟨"", some 0, [0, 1, 2]⟩ view1 (by decide)
    (fun i h => by
      have h0 : (0 : Nat) = i := Option.some.inj h
      subst h0
      decide)
theorem takeWhile_len_le {α : Type} (q : α → Bool) (l : List α) :
    (l.takeWhile q).length ≤ l.length :=
  (l.takeWhile_prefix q).sublist.length_le

theorem takeWhile_len_eq_all {α : Type} (q : α → Bool) :
    ∀ l : List α, (l.takeWhile q).length = l.length → ∀ x ∈ l, q x = true
  | [], _, x, hx => absurd hx (List.not_mem_nil x)
  | a :: t, h, x, hx => by
      cases hq : q a with
      | false => simp [List.takeWhile_cons, hq] at h
      | true =>
          simp only [List.takeWhile_cons, hq, List.length_cons] at h
          rcases List.mem_cons.mp hx with rfl | hxt
          · exact hq
          · exact takeWhile_len_eq_all q t (Nat.succ_injective h) x hxt

theorem takeWhile_len_lt_exists {α : Type} (q : α → Bool) :
    ∀ l : List α, (l.takeWhile q).length < l.length → ∃ x ∈ l, q x = false
  | a :: t, h => by
      cases hq : q a with
      | false => exact ⟨a, List.mem_cons_self a t, hq⟩
      | true =>
          simp only [List.takeWhile_cons, hq, List.length_cons] at h
          obtain ⟨x, hx, hqx⟩ := takeWhile_len_lt_exists q t (Nat.lt_of_succ_lt_succ h)
          exact ⟨x, List.mem_cons_of_mem a hx, hqx⟩

theorem findIdx_eq_takeWhile_len {α : Type} (p : α → Bool) :
    ∀ l : List α, l.findIdx p = (l.takeWhile (fun a => !p a)).length
  | [] => rfl
  | a :: t => by
      cases hp : p a with
      | true => simp [List.findIdx_cons, List.takeWhile_cons, hp]
      | false =>
          simp [List.findIdx_cons, List.takeWhile_cons, hp,
            findIdx_eq_takeWhile_len p t]

theorem set_selected_idx_fst_matches (doc : Document) (s : Search) (k : Nat)
    (v : DocumentView) :
    (Search.set_selected_idx doc s k v).1.matches_ = s.matches_ := by
  unfold Search.set_selected_idx
  split <;> rfl

theorem set_selected_idx_fst_query (doc : Document) (s : Search) (k : Nat)
    (v : DocumentView) :
    (Search.set_selected_idx doc s k v).1.query = s.query := by
  unfold Search.set_selected_idx
  split <;> rfl

theorem set_selected_idx_sel_of_lt (doc : Document) (s : Search) (k : Nat)
    (v : DocumentView) (h : k < s.matches_.length) :
    (Search.set_selected_idx doc s k v).1.selected_idx = some k := by
  unfold Search.set_selected_idx
  simp [h]

theorem set_selected_idx_sel_of_ge (doc : Document) (s : Search) (k : Nat)
    (v : DocumentView) (h : ¬ k < s.matches_.length) :
    (Search.set_selected_idx doc s k v).1.selected_idx = s.selected_idx := by
  unfold Search.set_selected_idx
  simp [h]

/-- C2 (amended): after a query edit refilters the matches, the new
selection is the first remaining match whose link index is at least the
link index selected before the edit, falling back to the last match when
none qualifies; when the refiltered `matches` is empty the selection is
left unchanged (rather than cleared). -/
theorem C2_selection_after_edit (doc : Document) (s : Search) (v : DocumentView)
    (c : Char) (str : String) (i : Nat)
    (hsel : s.selected_idx = some i) (hb : i < s.matches_.length) :
    pushQueryChar doc s v c =
      Search.update_matches doc { s with query := s.query.push c } v ∧
    popQueryChar doc s v =
      Search.update_matches doc { s with query := s.query.dropRight 1 } v ∧
    pushQueryStr doc s v str =
      Search.update_matches doc { s with query := s.query ++ str } v ∧
    ((Search.update_matches doc s v).1.matches_ = [] →
      (Search.update_matches doc s v).1.selected_idx = s.selected_idx) ∧
    ((Search.update_matches doc s v).1.matches_ ≠ [] →
      (Search.update_matches doc s v).1.selected_idx =
        some (
          if (Search.update_matches doc s v).1.matches_.any
              (fun x => decide (s.matches_.getD i 0 ≤ x)) then
            (Search.update_matches doc s v).1.matches_.findIdx
              (fun x => decide (s.matches_.getD i 0 ≤ x))
          else (Search.update_matches doc s v).1.matches_.length - 1)) := by
  refine ⟨rfl, rfl, rfl, ?_⟩
  have hlen : 0 < s.matches_.length := by omega
  simp only [Search.update_matches, hsel, Option.getD_some, if_pos hlen,
    set_selected_idx_fst_matches]
  generalize hM : ((doc.links.enum).filter (fun p =>
      containsSub s.query.toList (sliceBytes doc.text p.2.start p.2.stop).toList)).map
      Prod.fst = M
  set prev := s.matches_.getD i 0 with hprev
  set pp := (M.takeWhile (fun linkIdx => decide (linkIdx < prev))).length with hpp
  have hpple : pp ≤ M.length := takeWhile_len_le _ M
  constructor
  · intro hMnil
    subst hMnil
    simp only [List.takeWhile_nil, List.length_nil] at hpp
    have h0 : pp = 0 := hpp
    rw [if_pos (by simp [h0])]
    exact set_selected_idx_sel_of_ge doc _ _ v (by simp)
  · intro hMne
    have hMpos : 0 < M.length := List.length_pos.mpr hMne
    have harrow : (fun x => !decide (prev ≤ x)) = (fun x => decide (x < prev)) := by
      funext x
      by_cases h : prev ≤ x <;> simp [h, Nat.not_le, Nat.lt_of_not_le, Nat.not_lt]
    by_cases hfull : pp = M.length
    · have hall := takeWhile_len_eq_all _ M (hpp ▸ hfull)
      have hany : M.any (fun x => decide (prev ≤ x)) = false := by
        rw [← Bool.not_eq_true, List.any_eq_true]
        rintro ⟨x, hx, hpx⟩
        have := hall x hx
        simp only [decide_eq_true_eq] at this hpx
        omega
      rw [if_pos hfull, hany, if_neg (by simp)]
      exact set_selected_idx_sel_of_lt doc _ _ v (by simp; omega)
    · have hlt : pp < M.length := by omega
      obtain ⟨x, hx, hqx⟩ := takeWhile_len_lt_exists _ M (hpp ▸ hlt)
      have hany : M.any (fun x => decide (prev ≤ x)) = true := by
        rw [List.any_eq_true]
        refine ⟨x, hx, ?_⟩
        simp only [decide_eq_false_iff_not, Nat.not_lt] at hqx
        simpa using hqx
      have hfind : M.findIdx (fun x => decide (prev ≤ x)) = pp := by
        rw [findIdx_eq_takeWhile_len, harrow, hpp]
      rw [if_neg hfull, hany, if_pos rfl, hfind]
      exact set_selected_idx_sel_of_lt doc _ _ v (by simpa using hlt)

/-- C2 counterexample: a state with one matching link and selection 0;
appending a character that matches nothing empties `matches`, yet the
selection stays `some 0` instead of becoming "no selection". -/
theorem C2_counterexample :
    (pushQueryChar doc1 ⟨"", some 0, [0]⟩ view1 'z').1.matches_ = [] ∧
    (pushQueryChar doc1 ⟨"", some 0, [0]⟩ view1 'z').1.selected_idx = some 0 ∧
    some 0 ≠ (none : Option Nat) := by
  refine ⟨by decide, by decide, by decide⟩

/-- C2 witness: the amended statement applied to a concrete state where
pushing a character keeps one match. -/
theorem C2_witness :
    (pushQueryChar doc1 ⟨"", some 0, [0]⟩ view1 'a' =
      Search.update_matches doc1 { (⟨"", some 0, [0]⟩ : Search) with query := "a" } view1) ∧
    ((Search.update_matches doc1 ⟨"", some 0, [0]⟩ view1).1.matches_ ≠ [] →
      (Search.update_matches doc1 ⟨"", some 0, [0]⟩ view1).1.selected_idx =
        some (
          if (Search.update_matches doc1 ⟨"", some 0, [0]⟩ view1).1.matches_.any
              (fun x => decide ((([0] : List Nat)).getD 0 0 ≤ x)) then
            (Search.update_matches doc1 ⟨"", some 0, [0]⟩ view1).1.matches_.findIdx
              (fun x => decide ((([0] : List Nat)).getD 0 0 ≤ x))
          else (Search.update_matches doc1 ⟨"", some 0, [0]⟩ view1).1.matches_.length - 1)) := by
  have h := C2_selection_after_edit doc1 ⟨"", some 0, [0]⟩ view1 'a' "a" 0 rfl (by decide)
  exact ⟨h.1, h.2.2.2.2⟩
theorem flowAux_lb (width : Nat) :
    ∀ (gs : List (String × Nat)) (byte cil : Nat) (att : CellAttributes)
      (attrs : List (Nat × SgrChange)),
      ∀ l ∈ flowAux width gs byte cil att attrs, byte ≤ l.start_byte
  | [], _, _, _, _ => by intro l hl; simp [flowAux] at hl
  | (g, cells) :: rest, byte, cil, att, attrs => by
      intro l hl
      have step : ∀ (att' : CellAttributes) (attrs' : List (Nat × SgrChange)) (cil' : Nat),
          l ∈ flowAux width rest (byte + g.utf8ByteSize) cil' att' attrs' →
          byte ≤ l.start_byte := by
        intro att' attrs' cil' h
        have := flowAux_lb width rest (byte + g.utf8ByteSize) cil' att' attrs' l h
        omega
      simp only [flowAux] at hl
      cases hn : (g == "\n") <;> cases hw : decide (width < cil + cells) <;>
        simp [hn, hw, List.mem_cons] at hl <;>
        first
          | exact step _ _ _ hl
          | (rcases hl with rfl | hl
             · simp
             · exact step _ _ _ hl)

theorem flowAux_sorted (width : Nat) :
    ∀ (gs : List (String × Nat)) (byte cil : Nat) (att : CellAttributes)
      (attrs : List (Nat × SgrChange)),
      (∀ p ∈ gs, 0 < p.1.utf8ByteSize) →
      List.Sorted (· ≤ ·) ((flowAux width gs byte cil att attrs).map Line.start_byte)
  | [], _, _, _, _, _ => by simp [flowAux]
  | (g, cells) :: rest, byte, cil, att, attrs, hsz => by
      have hszg : 0 < g.utf8ByteSize := hsz (g, cells) (List.mem_cons_self _ _)
      have hrest : ∀ p ∈ rest, 0 < p.1.utf8ByteSize :=
        fun p hp => hsz p (List.mem_cons_of_mem _ hp)
      have ihs : ∀ (att' : CellAttributes) (attrs' : List (Nat × SgrChange)) (cil' : Nat),
          List.Sorted (· ≤ ·)
            ((flowAux width rest (byte + g.utf8ByteSize) cil' att' attrs').map
              Line.start_byte) :=
        fun att' attrs' cil' => flowAux_sorted width rest _ cil' att' attrs' hrest
      simp only [flowAux]
      cases hn : (g == "\n") <;> cases hw : decide (width < cil + cells) <;>
        simp [hn, hw, List.sorted_cons] <;>
        first
          | exact ihs _ _ _
          | exact ⟨fun l hl => by
              have := flowAux_lb width rest (byte + g.utf8ByteSize) _ _ _ l hl
              omega, ihs _ _ _⟩

/-- C10: a flow-built line cache is never empty, starts with the line
`(0, default attributes)`, its starts are sorted (so `partition_point` is
the satisfying-prefix length), the partition point for any byte is at
least 1 (so the source's `partition_point - 1` in `find_line` cannot
underflow, even for byte 0 or a byte past end of text), and the resulting
line index is always in bounds. -/
theorem C10_flow_total (width : Nat) (gs : List (String × Nat))
    (attrs : List (Nat × SgrChange)) (byte : Nat)
    (hsz : ∀ p ∈ gs, 0 < p.1.utf8ByteSize) :
    flow width gs attrs ≠ [] ∧
    (flow width gs attrs).head? = some ⟨0, CellAttributes.default⟩ ∧
    List.Sorted (· ≤ ·) ((flow width gs attrs).map Line.start_byte) ∧
    1 ≤ ((flow width gs attrs).takeWhile (fun l => decide (l.start_byte ≤ byte))).length ∧
    DocumentView.find_line ⟨[], 0, width, 0, flow width gs attrs⟩ byte <
      (flow width gs attrs).length := by
  refine ⟨by simp [flow], rfl, ?_, ?_, ?_⟩
  · simp only [flow, List.map_cons, List.sorted_cons]
    refine ⟨?_, flowAux_sorted width gs 0 0 CellAttributes.default attrs hsz⟩
    intro b hb
    exact Nat.zero_le b
  · simp [flow, List.takeWhile_cons]
  · have h1 : 1 ≤ ((flow width gs attrs).takeWhile
        (fun l => decide (l.start_byte ≤ byte))).length := by
      simp [flow, List.takeWhile_cons]
    have h2 : ((flow width gs attrs).takeWhile
        (fun l => decide (l.start_byte ≤ byte))).length ≤ (flow width gs attrs).length :=
      takeWhile_len_le _ _
    simp only [DocumentView.find_line]
    omega

/-- C10 witness. -/
theorem C10_witness :
    flow 3 [("a", 1), ("\n", 1), ("b", 1)] [] ≠ [] ∧
    (flow 3 [("a", 1), ("\n", 1), ("b", 1)] []).head? =
      some ⟨0, CellAttributes.default⟩ ∧
    List.Sorted (· ≤ ·)
      ((flow 3 [("a", 1), ("\n", 1), ("b", 1)] []).map Line.start_byte) ∧
    1 ≤ ((flow 3 [("a", 1), ("\n", 1), ("b", 1)] []).takeWhile
        (fun l => decide (l.start_byte ≤ 7))).length ∧
    DocumentView.find_line ⟨[], 0, 3, 0, flow 3 [("a", 1), ("\n", 1), ("b", 1)] []⟩ 7 <
      (flow 3 [("a", 1), ("\n", 1), ("b", 1)] []).length :=
  C10_flow_total 3 [("a", 1), ("\n", 1), ("b", 1)] [] 7 (by decide)
theorem annotate_lb : ∀ (gs : List (String × Nat)) (base : Nat),
    ∀ p ∈ annotate gs base, base ≤ p.1
  | [], _ => by intro p hp; simp [annotate] at hp
  | (g, c) :: rest, base => by
      intro p hp
      simp only [annotate, List.mem_cons] at hp
      rcases hp with rfl | hp
      · exact Nat.le_refl base
      · have := annotate_lb rest (base + g.utf8ByteSize) p hp
        omega

theorem sliceConcat_skip (o : Nat) (g : String) :
    ∀ (bs : List Nat) (annot : List (Nat × String)),
      (∀ b ∈ bs, o < b) →
      sliceConcat bs ((o, g) :: annot) = sliceConcat bs annot
  | [], annot, _ => rfl
  | [b], annot, h => by
      have hb : o < b := h b (List.mem_singleton_self b)
      simp [sliceConcat, List.filter_cons, Nat.not_le.mpr hb]
  | b0 :: b1 :: rest, annot, h => by
      have hb0 : o < b0 := h b0 (List.mem_cons_self _ _)
      have hrest : ∀ b ∈ b1 :: rest, o < b := fun b hb => h b (List.mem_cons_of_mem _ hb)
      simp only [sliceConcat]
      rw [sliceConcat_skip o g (b1 :: rest) annot hrest]
      simp [List.filter_cons, Nat.not_le.mpr hb0]

theorem sliceConcat_cons_mem (o : Nat) (g : String) :
    ∀ (b : Nat) (bs : List Nat) (annot : List (Nat × String)),
      b ≤ o → (∀ b' ∈ bs, o < b') →
      sliceConcat (b :: bs) ((o, g) :: annot) = g :: sliceConcat (b :: bs) annot
  | b, [], annot, hb, _ => by
      simp [sliceConcat, List.filter_cons, hb]
  | b, b1 :: rest, annot, hb, h => by
      have hb1 : o < b1 := h b1 (List.mem_cons_self _ _)
      simp only [sliceConcat]
      rw [sliceConcat_skip o g (b1 :: rest) annot h]
      simp [List.filter_cons, hb, hb1]

theorem sliceConcat_drop_first (b0 b1 : Nat) (rest : List Nat)
    (annot : List (Nat × String)) (h : ∀ p ∈ annot, ¬ p.1 < b1) :
    sliceConcat (b0 :: b1 :: rest) annot = sliceConcat (b1 :: rest) annot := by
  have hfil : annot.filter (fun p => decide (b0 ≤ p.1) && decide (p.1 < b1)) = [] := by
    rw [List.filter_eq_nil_iff]
    intro p hp
    simp [h p hp]
  simp [sliceConcat, hfil]

theorem flow_slice_concat (width : Nat) :
    ∀ (gs : List (String × Nat)) (byte cil : Nat) (att : CellAttributes)
      (attrs : List (Nat × SgrChange)) (b0 : Nat),
      (∀ p ∈ gs, 0 < p.1.utf8ByteSize) → b0 ≤ byte →
      sliceConcat (b0 :: (flowAux width gs byte cil att attrs).map Line.start_byte)
        (annotate gs byte) = gs.map Prod.fst
  | [], byte, cil, att, attrs, b0, _, _ => by simp [flowAux, annotate, sliceConcat]
  | (g, cells) :: rest, byte, cil, att, attrs, b0, hsz, hb0 => by
      have hszg : 0 < g.utf8ByteSize := hsz (g, cells) (List.mem_cons_self _ _)
      have hrest : ∀ p ∈ rest, 0 < p.1.utf8ByteSize :=
        fun p hp => hsz p (List.mem_cons_of_mem _ hp)
      have hlb : ∀ (att' : CellAttributes) (attrs' : List (Nat × SgrChange)) (cil' b' : Nat),
          b' ∈ (flowAux width rest (byte + g.utf8ByteSize) cil' att' attrs').map
              Line.start_byte → byte < b' := by
        intro att' attrs' cil' b' hb'
        obtain ⟨l, hl, rfl⟩ := List.mem_map.mp hb'
        have := flowAux_lb width rest (byte + g.utf8ByteSize) cil' att' attrs' l hl
        omega
      have halb : ∀ p ∈ annotate rest (byte + g.utf8ByteSize), ¬ p.1 < byte + 1 := by
        intro p hp
        have := annotate_lb rest (byte + g.utf8ByteSize) p hp
        omega
      simp only [annotate, flowAux, List.map_cons]
      cases hn : (g == "\n") with
      | true =>
          have hg : g = "\n" := eq_of_beq hn
          have hsz1 : g.utf8ByteSize = 1 := by rw [hg]; rfl
          simp [hn]
          rw [sliceConcat_cons_mem byte g b0 _ _ hb0 (by
            intro b' hb'
            rcases List.mem_cons.mp hb' with rfl | hb'
            · omega
            · exact hlb _ _ _ b' hb')]
          rw [sliceConcat_drop_first b0 (byte + 1) _ _ halb]
          rw [hsz1]
          rw [flow_slice_concat width rest (byte + 1) 0 att attrs (byte + 1) hrest
            (Nat.le_refl _)]
      | false =>
          cases hw : decide (width < cil + cells) with
          | true =>
              simp [hn, hw]
              rw [sliceConcat_drop_first b0 byte _ _ (by
                intro p hp
                rcases List.mem_cons.mp hp with rfl | hp
                · omega
                · have := annotate_lb rest (byte + g.utf8ByteSize) p hp
                  omega)]
              rw [sliceConcat_cons_mem byte g byte _ _ (Nat.le_refl _)
                (fun b' hb' => hlb _ _ _ b' hb')]
              rw [flow_slice_concat width rest (byte + g.utf8ByteSize) cells
                (applyFlowAttrs attrs byte att).2 (applyFlowAttrs attrs byte att).1 byte
                hrest (by omega)]
          | false =>
              simp [hn, hw]
              rw [sliceConcat_cons_mem byte g b0 _ _ hb0
                (fun b' hb' => hlb _ _ _ b' hb')]
              rw [flow_slice_concat width rest (byte + g.utf8ByteSize)
                (cil + cells) (applyFlowAttrs attrs byte att).2
                (applyFlowAttrs attrs byte att).1 b0 hrest (by omega)]

/-- C6: flowing a text at any width and concatenating the graphemes that
the resulting lines cover (row `i` owns the document span from its start
byte to the next line's start byte) reproduces the original text exactly;
wrapping inserts no bytes. -/
theorem C6_flow_roundtrip (width : Nat) (gs : List (String × Nat))
    (attrs : List (Nat × SgrChange)) (hsz : ∀ p ∈ gs, 0 < p.1.utf8ByteSize) :
    sliceConcat ((flow width gs attrs).map Line.start_byte) (annotate gs 0) =
      gs.map Prod.fst ∧
    String.join (sliceConcat ((flow width gs attrs).map Line.start_byte)
        (annotate gs 0)) =
      String.join (gs.map Prod.fst) := by
  have h := flow_slice_concat width gs 0 0 CellAttributes.default attrs 0 hsz
    (Nat.le_refl 0)
  exact ⟨h, congrArg String.join h⟩

/-- C6 witness.  `Hi Bye` flowed at width 3 reflows into rows `Hi `, `Bye`
and concatenating the rows' spans gives back `Hi Bye`. -/
theorem C6_witness :
    sliceConcat ((flow 3 (asciiGraphemes "Hi Bye") []).map Line.start_byte)
        (annotate (asciiGraphemes "Hi Bye") 0) =
      (asciiGraphemes "Hi Bye").map Prod.fst ∧
    String.join (sliceConcat ((flow 3 (asciiGraphemes "Hi Bye") []).map Line.start_byte)
        (annotate (asciiGraphemes "Hi Bye") 0)) =
      String.join ((asciiGraphemes "Hi Bye").map Prod.fst) :=
  C6_flow_roundtrip 3 (asciiGraphemes "Hi Bye") [] (by decide)
/-- The open-count contribution of one action. -/
def hyperOpenWeight : Action → Nat
  | Action.setHyperlink (some _) => 1
  | _ => 0

theorem countHyperOpens_cons (a : Action) (rest : List Action) :
    countHyperOpens (a :: rest) = hyperOpenWeight a + countHyperOpens rest := by
  cases a with
  | setHyperlink p =>
      cases p with
      | none => simp [countHyperOpens, hyperOpenWeight, List.filter_cons]
      | some u =>
          simp [countHyperOpens, hyperOpenWeight, List.filter_cons]
          omega
  | print c => simp [countHyperOpens, hyperOpenWeight, List.filter_cons]
  | lineFeed => simp [countHyperOpens, hyperOpenWeight, List.filter_cons]
  | sgr s => simp [countHyperOpens, hyperOpenWeight, List.filter_cons]
  | other => simp [countHyperOpens, hyperOpenWeight, List.filter_cons]

theorem buildStep_links_delta (st : BState) (a : Action) (st1 : BState)
    (h : buildStep st a = Except.ok st1) :
    st1.links.length + (if st1.pending.isSome then 1 else 0) =
      st.links.length + (if st.pending.isSome then 1 else 0) + hyperOpenWeight a := by
  cases a with
  | print c => simp only [buildStep] at h; cases h; simp [hyperOpenWeight]
  | lineFeed => simp only [buildStep] at h; cases h; simp [hyperOpenWeight]
  | other => simp only [buildStep] at h; cases h; simp [hyperOpenWeight]
  | sgr s =>
      cases hs : sgrToChange s with
      | none => rw [buildStep, hs] at h; cases h
      | some ch =>
          rw [buildStep, hs] at h
          cases h
          simp [hyperOpenWeight]
  | setHyperlink p =>
      simp only [buildStep] at h
      cases hp : st.pending with
      | none =>
          rw [hp] at h
          cases h
          cases p <;> simp [hyperOpenWeight, hp]
      | some q =>
          rw [hp] at h
          cases h
          cases p <;> simp [hyperOpenWeight, hp]

theorem buildSteps_links_count : ∀ (acts : List Action) (st st' : BState),
    buildSteps acts st = Except.ok st' →
    st'.links.length + (if st'.pending.isSome then 1 else 0) =
      st.links.length + (if st.pending.isSome then 1 else 0) + countHyperOpens acts
  | [], st, st', h => by
      simp only [buildSteps] at h
      cases h
      simp [countHyperOpens]
  | a :: rest, st, st', h => by
      simp only [buildSteps] at h
      cases hstep : buildStep st a with
      | error e => rw [hstep] at h; cases h
      | ok st1 =>
          rw [hstep] at h
          have ih := buildSteps_links_count rest st1 st' h
          have hd := buildStep_links_delta st a st1 hstep
          rw [countHyperOpens_cons]
          omega

/-- C7: each OSC-8 open (a hyperlink announcement carrying a URI) yields
its own `LinkRange` — never deduplicated or coalesced — and in particular
the zero-length-link input yields exactly one range with
`start = end = 0`, while an adjacent repeated announcement yields two
ranges. -/
theorem C7_links_not_coalesced :
    (∀ (acts : List Action) (d : Document), documentNew acts = Except.ok d →
      d.links.length = countHyperOpens acts) ∧
    (∃ d, documentNew (parseInput "\x1b]8;;http://a.b\x1b\\\x1b]8;;\x1b\\After") =
        Except.ok d ∧
      d.links = [⟨0, 0, "http://a.b"⟩]) ∧
    (∃ d2, documentNew
        (parseInput "Before\x1b]8;;http://a.b\x1b\\\x1b]8;;http://a.b\x1b\\After") =
        Except.ok d2 ∧
      d2.links = [⟨6, 6, "http://a.b"⟩, ⟨6, 11, "http://a.b"⟩]) := by
  refine ⟨?_, ⟨_, rfl, by decide⟩, ⟨_, rfl, by decide⟩⟩
  intro acts d h
  simp only [documentNew] at h
  cases hb : buildSteps acts BState.init with
  | error e => rw [hb] at h; cases h
  | ok st =>
      rw [hb] at h
      cases h
      have hcount := buildSteps_links_count acts BState.init st hb
      simp only [BState.init] at hcount
      cases hp : st.pending with
      | none =>
          rw [hp] at hcount
          simp at hcount
          simp [finishBuild, hp]
          omega
      | some q =>
          rw [hp] at hcount
          simp at hcount
          obtain ⟨start, link⟩ := q
          simp [finishBuild, hp]
          omega

/-- C7 witness: the general count statement applied to the zero-length-link
input. -/
theorem C7_witness :
    (Document.mk "After" [(0, SgrChange.AllAttributes CellAttributes.default)]
        [⟨0, 0, "http://a.b"⟩]).links.length =
      countHyperOpens (parseInput "\x1b]8;;http://a.b\x1b\\\x1b]8;;\x1b\\After") :=
  C7_links_not_coalesced.1 (parseInput "\x1b]8;;http://a.b\x1b\\\x1b]8;;\x1b\\After") _ rfl

theorem buildSteps_append : ∀ (xs ys : List Action) (st : BState),
    buildSteps (xs ++ ys) st =
      match buildSteps xs st with
      | Except.ok st1 => buildSteps ys st1
      | Except.error e => Except.error e
  | [], ys, st => by simp [buildSteps]
  | a :: rest, ys, st => by
      simp only [List.cons_append, buildSteps]
      cases buildStep st a with
      | error e => rfl
      | ok st1 => exact buildSteps_append rest ys st1

theorem buildSteps_no_hyper : ∀ (ys : List Action) (st st' : BState),
    (∀ a ∈ ys, a.isSetHyperlink = false) →
    buildSteps ys st = Except.ok st' →
    st'.pending = st.pending ∧ st'.links = st.links
  | [], st, st', _, h => by
      simp only [buildSteps] at h
      cases h
      exact ⟨rfl, rfl⟩
  | a :: rest, st, st', hys, h => by
      have hrest : ∀ a ∈ rest, a.isSetHyperlink = false :=
        fun a ha => hys a (List.mem_cons_of_mem _ ha)
      simp only [buildSteps] at h
      cases a with
      | setHyperlink p =>
          have := hys (Action.setHyperlink p) (List.mem_cons_self _ _)
          simp [Action.isSetHyperlink] at this
      | print c =>
          simp only [buildStep] at h
          have ih := buildSteps_no_hyper rest _ st' hrest h
          exact ih
      | lineFeed =>
          simp only [buildStep] at h
          have ih := buildSteps_no_hyper rest _ st' hrest h
          exact ih
      | other =>
          simp only [buildStep] at h
          have ih := buildSteps_no_hyper rest _ st' hrest h
          exact ih
      | sgr s =>
          cases hs : sgrToChange s with
          | none => rw [buildStep, hs] at h; simp at h
          | some ch =>
              rw [buildStep, hs] at h
              simp only [] at h
              have ih := buildSteps_no_hyper rest _ st' hrest h
              exact ih

/-- C9: a hyperlink opened by an OSC-8 action carrying a URI and never
followed by another hyperlink action is closed implicitly at end of text:
the built document's last `LinkRange` carries that URI and ends at the
final text length. -/
theorem C9_implicit_close (xs ys : List Action) (u : String) (d : Document)
    (hys : ∀ a ∈ ys, a.isSetHyperlink = false)
    (hok : documentNew (xs ++ Action.setHyperlink (some u) :: ys) = Except.ok d) :
    ∃ start, d.links.getLast? = some ⟨start, d.text.utf8ByteSize, u⟩ := by
  simp only [documentNew] at hok
  cases hb : buildSteps (xs ++ Action.setHyperlink (some u) :: ys) BState.init with
  | error e => rw [hb] at hok; cases hok
  | ok st =>
      rw [hb] at hok
      cases hok
      rw [buildSteps_append] at hb
      cases hxs : buildSteps xs BState.init with
      | error e => rw [hxs] at hb; cases hb
      | ok st1 =>
          rw [hxs] at hb
          simp only [buildSteps, buildStep] at hb
          cases hp1 : st1.pending with
          | none =>
              rw [hp1] at hb
              simp only [Option.map_some] at hb
              have hpend := buildSteps_no_hyper ys _ st hys hb
              refine ⟨st1.text.utf8ByteSize, ?_⟩
              have hstp : st.pending = some (st1.text.utf8ByteSize, u) := hpend.1
              simp only [finishBuild, hstp]
              rw [List.getLast?_concat]
          | some q =>
              obtain ⟨s0, l0⟩ := q
              rw [hp1] at hb
              simp only [Option.map_some] at hb
              have hpend := buildSteps_no_hyper ys _ st hys hb
              refine ⟨st1.text.utf8ByteSize, ?_⟩
              have hstp : st.pending = some (st1.text.utf8ByteSize, u) := hpend.1
              simp only [finishBuild, hstp]
              rw [List.getLast?_concat]
/-- C9 witness: open a link, print one character, never close; the built
document's only link ends at the final text length. -/
theorem C9_witness :
    ∃ start,
      (Document.mk "A" [(0, SgrChange.AllAttributes CellAttributes.default)]
          [⟨0, 1, "u"⟩] : Document).links.getLast? =
        some ⟨start,
          (Document.mk "A" [(0, SgrChange.AllAttributes CellAttributes.default)]
            [⟨0, 1, "u"⟩] : Document).text.utf8ByteSize, "u"⟩ :=
  C9_implicit_close [] [Action.print 'A'] "u" _ (by decide) rfl
theorem applyRenderAttr_byte (st : RenderState) (c : SgrChange) :
    (applyRenderAttr st c).byte = st.byte := by
  cases c with
  | AllAttributes a => rfl
  | Attribute d => cases d <;> rfl

theorem applyRenderAttr_active (st : RenderState) (c : SgrChange) :
    (applyRenderAttr st c).active = st.active := by
  cases c with
  | AllAttributes a => rfl
  | Attribute d => cases d <;> rfl

theorem applyRenderAttrs_byte : ∀ (ar : List (Nat × SgrChange)) (st : RenderState),
    (applyRenderAttrs ar st).byte = st.byte
  | [], st => rfl
  | (b, c) :: rest, st => by
      simp only [applyRenderAttrs]
      by_cases hb : b ≤ st.byte
      · rw [if_pos hb, applyRenderAttrs_byte rest _, applyRenderAttr_byte]
      · rw [if_neg hb]

theorem applyRenderAttrs_active : ∀ (ar : List (Nat × SgrChange)) (st : RenderState),
    (applyRenderAttrs ar st).active = st.active
  | [], st => rfl
  | (b, c) :: rest, st => by
      simp only [applyRenderAttrs]
      by_cases hb : b ≤ st.byte
      · rw [if_pos hb, applyRenderAttrs_active rest _, applyRenderAttr_active]
      · rw [if_neg hb]

theorem applyRenderAttr_inv (s e : Nat) (stA stB : RenderState) (c : SgrChange)
    (h : RInv s e stA stB) :
    RInv s e (applyRenderAttr stA c) (applyRenderAttr stB c) := by
  obtain ⟨h1, h2, h3, h4, h5, h6, h7, h8, h9, h10, h11⟩ := h
  cases c with
  | AllAttributes a =>
      refine ⟨h1, h2, h3, rfl, h5, ?_, h7, ?_, ?_, h10, h11⟩
      · simpa [applyRenderAttr, pushChange] using h6
      · simp [applyRenderAttr, pushChange, updCurRev, h6]
      · cases ha : stA.active <;>
          simp [applyRenderAttr, pushChange, updCurRev, ha]
  | Attribute d =>
      cases d with
      | Reverse nr =>
          refine ⟨h1, h2, h3, rfl, h5, ?_, h7, ?_, ?_, h10, h11⟩
          · simpa [applyRenderAttr, pushChange] using h6
          · simp [applyRenderAttr, pushChange, updCurRev, h6]
          · cases ha : stA.active <;>
              simp [applyRenderAttr, pushChange, updCurRev, ha]
      | Intensity i => exact ⟨h1, h2, h3, h4, h5, h6, h7, h8, h9, h10, h11⟩
      | Underline u => exact ⟨h1, h2, h3, h4, h5, h6, h7, h8, h9, h10, h11⟩
      | Italic b => exact ⟨h1, h2, h3, h4, h5, h6, h7, h8, h9, h10, h11⟩
      | Blink b => exact ⟨h1, h2, h3, h4, h5, h6, h7, h8, h9, h10, h11⟩
      | Invisible b => exact ⟨h1, h2, h3, h4, h5, h6, h7, h8, h9, h10, h11⟩
      | StrikeThrough b => exact ⟨h1, h2, h3, h4, h5, h6, h7, h8, h9, h10, h11⟩
      | Foreground c' => exact ⟨h1, h2, h3, h4, h5, h6, h7, h8, h9, h10, h11⟩
      | Background c' => exact ⟨h1, h2, h3, h4, h5, h6, h7, h8, h9, h10, h11⟩

theorem applyRenderAttrs_inv (s e : Nat) : ∀ (ar : List (Nat × SgrChange))
    (stA stB : RenderState), RInv s e stA stB →
    RInv s e (applyRenderAttrs ar stA) (applyRenderAttrs ar stB)
  | [], stA, stB, h => by
      obtain ⟨h1, h2, h3, h4, h5, h6, h7, h8, h9, h10, h11⟩ := h
      exact ⟨h1, h2, h3, h4, rfl, h6, h7, h8, h9, h10, h11⟩
  | (b, c) :: rest, stA, stB, h => by
      have h1 : stA.byte = stB.byte := h.1
      simp only [applyRenderAttrs]
      by_cases hb : b ≤ stA.byte
      · rw [if_pos hb, if_pos (h1 ▸ hb)]
        exact applyRenderAttrs_inv s e rest _ _ (applyRenderAttr_inv s e stA stB c h)
      · rw [if_neg hb, if_neg (h1 ▸ hb)]
        obtain ⟨h1, h2, h3, h4, h5, h6, h7, h8, h9, h10, h11⟩ := h
        exact ⟨h1, h2, h3, h4, rfl, h6, h7, h8, h9, h10, h11⟩

theorem TraceRel_append (s e : Nat) (tA tB : List TraceEntry) (a b : TraceEntry)
    (h : TraceRel s e tA tB) (hby : a.byte = b.byte) (hg : a.grapheme = b.grapheme)
    (hu : a.underlying = b.underlying)
    (hd : s ≤ a.byte → a.byte < e → a.dispRev = !b.dispRev) :
    TraceRel s e (tA ++ [a]) (tB ++ [b]) := by
  obtain ⟨hlen, hk⟩ := h
  constructor
  · simp [hlen]
  · intro k hklen
    simp only [List.length_append, List.length_singleton] at hklen
    by_cases hkl : k < tA.length
    · rw [List.getD_append _ _ _ _ hkl, List.getD_append _ _ _ _ (hlen ▸ hkl)]
      exact hk k hkl
    · have hke : k = tA.length := by omega
      have e1 : (tA ++ [a]).getD k default = a := by
        rw [List.getD_append_right _ _ _ _ (by omega), hke]
        simp
      have e2 : (tB ++ [b]).getD k default = b := by
        rw [List.getD_append_right _ _ _ _ (by omega), hke, hlen]
        simp
      rw [e1, e2]
      exact ⟨hby, hg, hu, hd⟩
theorem toggleHighlight_inv (s e : Nat) (stA stB : RenderState) (h : RInv s e stA stB) :
    RInv s e (toggleHighlight stA) (toggleHighlight stB) ∧
    toggleHighlight stB = stB ∧
    ((toggleHighlight stA).active.isSome = true ∨ ¬ s ≤ stA.byte ∨ e ≤ stA.byte) := by
  obtain ⟨h1, h2, h3, h4, h5, h6, h7, h8, h9, h10, h11⟩ := h
  have hBid : toggleHighlight stB = stB := by
    simp [toggleHighlight, h6, h7]
  refine ⟨?_, hBid, ?_⟩
  · rw [hBid]
    rcases h10 with ⟨ha, hh⟩ | ⟨ha, hh⟩ | ⟨ha, hh, hby⟩
    · -- phase 1: before the range
      by_cases hs : s ≤ stA.byte
      · simp only [toggleHighlight, ha, hh, List.head?_cons, if_pos hs]
        exact ⟨h1, h2, h3, h4, h5, h6, h7, h8,
          by simp [pushChange, updCurRev], Or.inr (Or.inl ⟨rfl, hh⟩), h11⟩
      · simp only [toggleHighlight, ha, hh, List.head?_cons, if_neg hs]
        exact ⟨h1, h2, h3, h4, h5, h6, h7, h8, h9, Or.inl ⟨ha, hh⟩, h11⟩
    · -- phase 2: inside the range
      by_cases he : e ≤ stA.byte
      · simp only [toggleHighlight, ha, if_pos he]
        refine ⟨h1, h2, h3, h4, h5, h6, h7, h8,
          by simp [pushChange, updCurRev], ?_, h11⟩
        exact Or.inr (Or.inr ⟨rfl, by simp [hh], he⟩)
      · simp only [toggleHighlight, ha, if_neg he]
        exact ⟨h1, h2, h3, h4, h5, h6, h7, h8, h9, Or.inr (Or.inl ⟨ha, hh⟩), h11⟩
    · -- phase 3: past the range
      simp only [toggleHighlight, ha, hh, List.head?_nil]
      exact ⟨h1, h2, h3, h4, h5, h6, h7, h8, h9, Or.inr (Or.inr ⟨ha, hh, hby⟩), h11⟩
  · rcases h10 with ⟨ha, hh⟩ | ⟨ha, hh⟩ | ⟨ha, hh, hby⟩
    · by_cases hs : s ≤ stA.byte
      · simp only [toggleHighlight, ha, hh, List.head?_cons, if_pos hs]
        exact Or.inl rfl
      · exact Or.inr (Or.inl hs)
    · by_cases he : e ≤ stA.byte
      · exact Or.inr (Or.inr he)
      · simp only [toggleHighlight, ha, if_neg he]
        exact Or.inl rfl
    · exact Or.inr (Or.inr hby)

theorem toggleHighlight_byte (st : RenderState) :
    (toggleHighlight st).byte = st.byte := by
  simp only [toggleHighlight]
  rcases st.active with _ | hl
  · rcases hhd : st.hls.head? with _ | hl
    · rfl
    · by_cases hs : hl.1 ≤ st.byte <;> simp [hs, pushChange]
  · by_cases he : hl.2 ≤ st.byte <;> simp [he, pushChange]

theorem emitText_inv (s e : Nat) (stA stB : RenderState) (g : String) (cells : Nat)
    (h : RInv s e stA stB)
    (hd : s ≤ stA.byte → stA.byte < e → stA.curRev = !stB.curRev) :
    RInv s e (emitText stA g cells) (emitText stB g cells) := by
  obtain ⟨h1, h2, h3, h4, h5, h6, h7, h8, h9, h10, h11⟩ := h
  refine ⟨h1, by simp [emitText, pushChange, h2], h3, h4, h5, h6, h7,
    by simp [emitText, pushChange, updCurRev, h8], ?_, h10, ?_⟩
  · simp only [emitText, pushChange, updCurRev]
    exact h9
  · simp only [emitText, pushChange]
    exact TraceRel_append s e stA.trace stB.trace _ _ h11 h1 rfl h4 hd

theorem emitGrapheme_inv (s e : Nat) (stA stB : RenderState) (g : String) (cells : Nat)
    (h : RInv s e stA stB) :
    RInv s e (emitGrapheme stA g cells) (emitGrapheme stB g cells) := by
  obtain ⟨hT, hBid, hvac⟩ := toggleHighlight_inv s e stA stB h
  simp only [emitGrapheme, hBid]
  have hattrs : (toggleHighlight stA).attrs = stB.attrs := by
    rw [hBid] at hT
    exact hT.2.2.2.2.1
  have hAfter := applyRenderAttrs_inv s e (toggleHighlight stA).attrs
    (toggleHighlight stA) stB (hBid ▸ hT)
  have hswap : applyRenderAttrs (toggleHighlight stA).attrs stB =
      applyRenderAttrs stB.attrs stB := by rw [hattrs]
  rw [hswap] at hAfter
  refine emitText_inv s e _ _ g cells hAfter ?_
  have hbyteA : (applyRenderAttrs (toggleHighlight stA).attrs (toggleHighlight stA)).byte
      = stA.byte := by
    rw [applyRenderAttrs_byte, toggleHighlight_byte]
  have hactA : (applyRenderAttrs (toggleHighlight stA).attrs (toggleHighlight stA)).active
      = (toggleHighlight stA).active := applyRenderAttrs_active _ _
  intro hs he
  rw [hbyteA] at hs he
  rcases hvac with hsome | hns | hpast
  · have h9' := hAfter.2.2.2.2.2.2.2.2.1
    have h8' := hAfter.2.2.2.2.2.2.2.1
    have h4' := hAfter.2.2.2.1
    rw [hactA] at h9'
    rw [h9', hsome, h8', h4']
    simp
  · exact absurd hs hns
  · omega
theorem RInv_bump (s e n : Nat) (stA stB : RenderState) (h : RInv s e stA stB) :
    RInv s e { stA with byte := stA.byte + n } { stB with byte := stB.byte + n } := by
  obtain ⟨h1, h2, h3, h4, h5, h6, h7, h8, h9, h10, h11⟩ := h
  refine ⟨by simp [h1], h2, h3, h4, h5, h6, h7, h8, h9, ?_, h11⟩
  rcases h10 with ⟨ha, hh⟩ | ⟨ha, hh⟩ | ⟨ha, hh, hby⟩
  · exact Or.inl ⟨ha, hh⟩
  · exact Or.inr (Or.inl ⟨ha, hh⟩)
  · exact Or.inr (Or.inr ⟨ha, hh, by simp; omega⟩)

theorem advanceRow_inv (s e : Nat) (stA stB : RenderState) (h : RInv s e stA stB) :
    RInv s e
      { pushChange stA (Change.Text "\r\n") with
          line := (pushChange stA (Change.Text "\r\n")).line + 1, cells_in_line := 0 }
      { pushChange stB (Change.Text "\r\n") with
          line := (pushChange stB (Change.Text "\r\n")).line + 1, cells_in_line := 0 } := by
  obtain ⟨h1, h2, h3, h4, h5, h6, h7, h8, h9, h10, h11⟩ := h
  exact ⟨h1, rfl, by simp [pushChange, h3], h4, h5, h6, h7, h8, h9, h10, h11⟩

theorem renderLoop_inv (s e width lastLine : Nat) :
    ∀ (gs : List (String × Nat)) (stA stB : RenderState), RInv s e stA stB →
      RInv s e (renderLoop width lastLine gs stA) (renderLoop width lastLine gs stB)
  | [], _, _, h => h
  | (g, cells) :: rest, stA, stB, h => by
      have h2 := h.2.1
      have h3 := h.2.2.1
      have hcond : (decide (width < stB.cells_in_line + cells) || (g == "\n")) =
          (decide (width < stA.cells_in_line + cells) || (g == "\n")) := by rw [h2]
      simp only [renderLoop, hcond]
      cases hbrk : (decide (width < stA.cells_in_line + cells) || (g == "\n")) with
      | true =>
          rw [if_pos rfl, if_pos rfl]
          by_cases hl : stA.line = lastLine
          · have hlB : stB.line = lastLine := h3 ▸ hl
            rw [if_pos hl, if_pos hlB]
            exact h
          · have hlB : ¬ stB.line = lastLine := by rw [← h3]; exact hl
            rw [if_neg hl, if_neg hlB]
            refine renderLoop_inv s e width lastLine rest _ _
              (RInv_bump s e g.utf8ByteSize _ _ ?_)
            have hadv := advanceRow_inv s e stA stB h
            cases hn : (g == "\n") with
            | true =>
                rw [if_pos rfl, if_pos rfl]
                exact hadv
            | false =>
                rw [if_neg Bool.false_ne_true, if_neg Bool.false_ne_true]
                exact emitGrapheme_inv s e _ _ g cells hadv
      | false =>
          have hn : (g == "\n") = false := by
            rcases Bool.or_eq_false_iff.mp hbrk with ⟨_, hn⟩
            exact hn
          rw [if_neg Bool.false_ne_true, if_neg Bool.false_ne_true]
          refine renderLoop_inv s e width lastLine rest _ _
            (RInv_bump s e g.utf8ByteSize _ _ ?_)
          rw [hn, if_neg Bool.false_ne_true, if_neg Bool.false_ne_true]
          exact emitGrapheme_inv s e _ _ g cells h

/-- C5: rendering with a single highlight range `[s, e)` emits, at every
rendered byte inside the range, exactly the negation of the reverse state
that the same render without a highlight emits at that byte; bytes,
graphemes and the underlying authored reverse state are identical in both
runs (the highlight never alters the tracked `reversed`). -/
theorem C5_highlight_inversion (docAttrs : List (Nat × SgrChange)) (lines : List Line)
    (line height width s e : Nat) (gs : List (String × Nat)) :
    TraceRel s e
      (render_lines docAttrs lines line height width [(s, e)] gs).trace
      (render_lines docAttrs lines line height width [] gs).trace := by
  have hinit : RInv s e
      (let l0 := lines.getD line ⟨0, CellAttributes.default⟩
       { changes := [Change.AllAttributes l0.start_attributes]
         curRev := l0.start_attributes.reverse
         trace := []
         byte := l0.start_byte
         reversed := l0.start_attributes.reverse
         cells_in_line := 0
         line := line
         attrs := docAttrs.dropWhile (fun p => decide (p.1 < l0.start_byte))
         hls := [(s, e)].dropWhile (fun p => decide (p.2 ≤ l0.start_byte))
         active := none })
      (let l0 := lines.getD line ⟨0, CellAttributes.default⟩
       { changes := [Change.AllAttributes l0.start_attributes]
         curRev := l0.start_attributes.reverse
         trace := []
         byte := l0.start_byte
         reversed := l0.start_attributes.reverse
         cells_in_line := 0
         line := line
         attrs := docAttrs.dropWhile (fun p => decide (p.1 < l0.start_byte))
         hls := ([] : List (Nat × Nat)).dropWhile (fun p => decide (p.2 ≤ l0.start_byte))
         active := none }) := by
    refine ⟨rfl, rfl, rfl, rfl, rfl, rfl, rfl, rfl, rfl, ?_, by simp [TraceRel]⟩
    by_cases he : e ≤ (lines.getD line ⟨0, CellAttributes.default⟩).start_byte
    · simp only [List.dropWhile_cons, decide_eq_true_eq, he, if_pos, List.dropWhile_nil]
      exact Or.inr (Or.inr ⟨rfl, by simp [he], he⟩)
    · simp only [List.dropWhile_cons, decide_eq_true_eq]
      rw [if_neg he]
      exact Or.inl ⟨rfl, rfl⟩
  exact (renderLoop_inv s e width (min lines.length (line + height) - 1) gs _ _
    hinit).2.2.2.2.2.2.2.2.2.2
/-- C5 witness: on `abc` with highlight `[1, 2)`, both runs emit the same
number of graphemes and the highlighted run shows the opposite reverse
state at byte 1. -/
theorem C5_witness :
    (render_lines [] [⟨0, CellAttributes.default⟩] 0 2 5 [(1, 2)]
        (asciiGraphemes "abc")).trace.length =
      (render_lines [] [⟨0, CellAttributes.default⟩] 0 2 5 []
        (asciiGraphemes "abc")).trace.length ∧
    ((render_lines [] [⟨0, CellAttributes.default⟩] 0 2 5 [(1, 2)]
        (asciiGraphemes "abc")).trace.getD 1 default).dispRev =
      !((render_lines [] [⟨0, CellAttributes.default⟩] 0 2 5 []
        (asciiGraphemes "abc")).trace.getD 1 default).dispRev := by
  have h := C5_highlight_inversion [] [⟨0, CellAttributes.default⟩] 0 2 5 1 2
    (asciiGraphemes "abc")
  exact ⟨h.1, (h.2 1 (by decide)).2.2.2 (by decide) (by decide)⟩

end Ate
